import Mathlib

/-!
Verification of the FundingRate crawler (`src/index.ts`).

The development shallowly embeds the crawler's pure core:
* the `FundingRate` record (§3 of the spec, `interface FundingRate`),
* the merge-dedup-sort step of `crawlFundingRates`
  (`_.sortBy(_.uniqBy(history.concat(fresh), 'fundingTime'), 'fundingTime')`),
* the resume-timestamp computation (`startTime` in `crawlFundingRates`),
* the checkpoint read with its parse error path,
* the per-exchange pagination loops (`crawlBinanceFundingRate`,
  `crawlBitMEXFundingRate`, `crawlHuobiFundingRate`, `crawlOKExFundingRate`),
  with the HTTP fetch abstracted as a function argument and the unbounded
  `do/while` loops driven by explicit fuel,
* the retry supervisor (the `while (!succeeded)` loop of `crawlFundingRates`).

JavaScript numbers that hold epoch milliseconds are modelled as `Int`;
the floating-point `fundingRate` payload is modelled as `Rat` (no claim
depends on its arithmetic).  `Array.prototype.sort` with the comparator
`x.fundingTime - y.fundingTime` (stable in Node 14) and lodash's stable
`_.sortBy` are both modelled by the stable `List.mergeSort`.
-/

set_option maxRecDepth 8000

namespace FundingRateCrawler

/-- The `interface FundingRate` record from `src/index.ts`. -/
structure FundingRate where
  exchange : String
  pair : String
  rawPair : String
  fundingRate : Rat
  fundingTime : Int
  fundingTimeStr : String
deriving DecidableEq, Repr

/-- Comparison used by every sort in the crawler: ascending by `fundingTime`
(the JS comparator `x.fundingTime - y.fundingTime`, lodash `sortBy 'fundingTime'`). -/
def leTime (a b : FundingRate) : Bool := a.fundingTime ≤ b.fundingTime

/-- Stable sort ascending by `fundingTime`. -/
def sortByTime (l : List FundingRate) : List FundingRate := l.mergeSort leTime

/-- Worker for `_.uniqBy(·, 'fundingTime')`: walk the list keeping the first
occurrence of each `fundingTime` key, `seen` being the keys already kept. -/
def uniqByTimeAux : List Int → List FundingRate → List FundingRate
  | _, [] => []
  | seen, r :: rs =>
    if r.fundingTime ∈ seen then uniqByTimeAux seen rs
    else r :: uniqByTimeAux (r.fundingTime :: seen) rs

/-- lodash `_.uniqBy(l, 'fundingTime')`: first occurrence of each key wins. -/
def uniqByTime (l : List FundingRate) : List FundingRate := uniqByTimeAux [] l

/-- The merge-dedup-sort step of `crawlFundingRates`:
`_.sortBy(_.uniqBy(fundingRatesHistory.concat(fundingRates), 'fundingTime'), 'fundingTime')`. -/
def merge (history fresh : List FundingRate) : List FundingRate :=
  sortByTime (uniqByTime (history ++ fresh))

/-! ### Lemmas about `uniqByTimeAux` -/

theorem uniqByTimeAux_sublist (seen : List Int) (l : List FundingRate) :
    List.Sublist (uniqByTimeAux seen l) l := by
  induction l generalizing seen with
  | nil => simp [uniqByTimeAux]
  | cons r rs ih =>
    simp only [uniqByTimeAux]
    split
    · exact (ih seen).trans (List.sublist_cons_self r rs)
    · exact (ih (r.fundingTime :: seen)).cons₂ r

theorem mem_of_mem_uniqByTimeAux {seen : List Int} {l : List FundingRate}
    {r : FundingRate} (h : r ∈ uniqByTimeAux seen l) : r ∈ l :=
  (uniqByTimeAux_sublist seen l).mem h

theorem time_not_mem_seen_of_mem_uniqByTimeAux {seen : List Int}
    {l : List FundingRate} {r : FundingRate}
    (h : r ∈ uniqByTimeAux seen l) : r.fundingTime ∉ seen := by
  induction l generalizing seen with
  | nil => simp [uniqByTimeAux] at h
  | cons a rs ih =>
    simp only [uniqByTimeAux] at h
    split at h
    · exact ih h
    · rcases List.mem_cons.1 h with rfl | h'
      · assumption
      · intro hmem
        exact ih h' (List.mem_cons_of_mem _ hmem)

theorem uniqByTimeAux_pairwise_ne (seen : List Int) (l : List FundingRate) :
    (uniqByTimeAux seen l).Pairwise (fun a b => a.fundingTime ≠ b.fundingTime) := by
  induction l generalizing seen with
  | nil => simp [uniqByTimeAux]
  | cons a rs ih =>
    simp only [uniqByTimeAux]
    split
    · exact ih seen
    · refine List.Pairwise.cons (fun b hb => ?_) (ih (a.fundingTime :: seen))
      have := time_not_mem_seen_of_mem_uniqByTimeAux hb
      intro hEq
      exact this (hEq ▸ List.mem_cons_self _ _)

theorem exists_mem_uniqByTimeAux_of_time (seen : List Int) {l : List FundingRate}
    {t : Int} (ht : t ∈ l.map FundingRate.fundingTime) (hseen : t ∉ seen) :
    ∃ r ∈ uniqByTimeAux seen l, r.fundingTime = t := by
  induction l generalizing seen with
  | nil => simp at ht
  | cons a rs ih =>
    simp only [List.map_cons, List.mem_cons] at ht
    simp only [uniqByTimeAux]
    split
    · rcases ht with rfl | ht'
      · exact absurd (by assumption) hseen
      · exact ih seen ht' hseen
    · rcases ht with rfl | ht'
      · exact ⟨a, List.mem_cons_self _ _, rfl⟩
      · by_cases hta : t = a.fundingTime
        · exact ⟨a, List.mem_cons_self _ _, hta.symm⟩
        · obtain ⟨r, hr, hrt⟩ := ih (a.fundingTime :: seen) ht'
            (by simp [hseen, hta])
          exact ⟨r, List.mem_cons_of_mem _ hr, hrt⟩

/-- First occurrence wins: an element surviving deduplication of `h ++ f`
either comes from `h`, or comes from `f` with a `fundingTime` not present
in `h`. -/
theorem uniqByTimeAux_append_first_wins {seen : List Int}
    {h f : List FundingRate} {r : FundingRate}
    (hr : r ∈ uniqByTimeAux seen (h ++ f)) :
    r ∈ h ∨ (r ∈ f ∧ ∀ x ∈ h, x.fundingTime ≠ r.fundingTime) := by
  induction h generalizing seen with
  | nil =>
    refine Or.inr ⟨mem_of_mem_uniqByTimeAux (by simpa using hr), ?_⟩
    intro x hx
    simp at hx
  | cons a h' ih =>
    simp only [List.cons_append, uniqByTimeAux] at hr
    split at hr
    · rcases ih hr with h1 | ⟨h2, h3⟩
      · exact Or.inl (List.mem_cons_of_mem _ h1)
      · refine Or.inr ⟨h2, fun x hx => ?_⟩
        rcases List.mem_cons.1 hx with rfl | hx'
        · have hnot := time_not_mem_seen_of_mem_uniqByTimeAux hr
          intro hEq
          exact hnot (hEq ▸ (by assumption))
        · exact h3 x hx'
    · rcases List.mem_cons.1 hr with rfl | hr'
      · exact Or.inl (List.mem_cons_self _ _)
      · rcases ih hr' with h1 | ⟨h2, h3⟩
        · exact Or.inl (List.mem_cons_of_mem _ h1)
        · refine Or.inr ⟨h2, fun x hx => ?_⟩
          rcases List.mem_cons.1 hx with rfl | hx'
          · have hnot := time_not_mem_seen_of_mem_uniqByTimeAux hr'
            intro hEq
            exact hnot (by simp [hEq])
          · exact h3 x hx'

theorem uniqByTimeAux_eq_nil {seen : List Int} {f : List FundingRate}
    (hf : ∀ r ∈ f, r.fundingTime ∈ seen) : uniqByTimeAux seen f = [] := by
  induction f with
  | nil => rfl
  | cons a f' ih =>
    simp only [uniqByTimeAux]
    rw [if_pos (hf a (List.mem_cons_self _ _))]
    exact ih fun r hr => hf r (List.mem_cons_of_mem _ hr)

/-- Appending records whose keys are all already present changes nothing. -/
theorem uniqByTimeAux_append_absorb {seen : List Int} {m f : List FundingRate}
    (hf : ∀ r ∈ f, r.fundingTime ∈ seen ∨ r.fundingTime ∈ m.map FundingRate.fundingTime) :
    uniqByTimeAux seen (m ++ f) = uniqByTimeAux seen m := by
  induction m generalizing seen with
  | nil =>
    simp only [List.nil_append, uniqByTimeAux]
    exact uniqByTimeAux_eq_nil fun r hr => (hf r hr).resolve_right (by simp)
  | cons a m' ih =>
    simp only [List.cons_append, uniqByTimeAux]
    split
    · apply ih
      intro r hr
      rcases hf r hr with h1 | h2
      · exact Or.inl h1
      · simp only [List.map_cons, List.mem_cons] at h2
        rcases h2 with hEq | h3
        · exact Or.inl (hEq ▸ (by assumption))
        · exact Or.inr h3
    · congr 1
      apply ih
      intro r hr
      rcases hf r hr with h1 | h2
      · exact Or.inl (List.mem_cons_of_mem _ h1)
      · simp only [List.map_cons, List.mem_cons] at h2
        rcases h2 with hEq | h3
        · exact Or.inl (hEq ▸ List.mem_cons_self _ _)
        · exact Or.inr h3

/-- Deduplication is the identity on a list with pairwise distinct keys,
none of which was already seen. -/
theorem uniqByTimeAux_eq_self {seen : List Int} {l : List FundingRate}
    (hseen : ∀ r ∈ l, r.fundingTime ∉ seen)
    (hne : l.Pairwise fun a b => a.fundingTime ≠ b.fundingTime) :
    uniqByTimeAux seen l = l := by
  induction l generalizing seen with
  | nil => rfl
  | cons a l' ih =>
    rcases List.pairwise_cons.1 hne with ⟨ha, hl'⟩
    simp only [uniqByTimeAux]
    rw [if_neg (hseen a (List.mem_cons_self _ _))]
    congr 1
    apply ih _ hl'
    intro r hr
    simp only [List.mem_cons, not_or]
    exact ⟨fun hEq => ha r hr hEq.symm, hseen r (List.mem_cons_of_mem _ hr)⟩

/-! ### Facts about `leTime` and the sort -/

theorem leTime_trans : ∀ a b c : FundingRate, leTime a b → leTime b c → leTime a c := by
  intro a b c
  simp only [leTime, decide_eq_true_eq]
  omega

theorem leTime_total : ∀ a b : FundingRate, leTime a b || leTime b a := by
  intro a b
  simp only [leTime, Bool.or_eq_true, decide_eq_true_eq]
  omega

theorem merge_perm_uniq (h f : List FundingRate) :
    List.Perm (merge h f) (uniqByTime (h ++ f)) :=
  List.mergeSort_perm _ _

theorem merge_pairwise_ne (h f : List FundingRate) :
    (merge h f).Pairwise (fun a b => a.fundingTime ≠ b.fundingTime) := by
  have hsymm : ∀ {x y : FundingRate},
      x.fundingTime ≠ y.fundingTime → y.fundingTime ≠ x.fundingTime :=
    fun hab hEq => hab hEq.symm
  exact ((merge_perm_uniq h f).pairwise_iff hsymm).2 (uniqByTimeAux_pairwise_ne _ _)

theorem merge_pairwise_le (h f : List FundingRate) :
    (merge h f).Pairwise fun a b => leTime a b :=
  List.sorted_mergeSort leTime_trans leTime_total _

/-! ### Claim theorems: merge engine -/

/-- C1: `merge(h, f)` is strictly ascending in `fundingTime` (hence sorted and
free of duplicate `fundingTime` values), every surviving record either comes
from the history `h` or is a fresh record whose `fundingTime` does not occur
in `h` (first occurrence wins, history takes precedence), and every
`fundingTime` occurring in `h` still occurs in the merged result. -/
theorem merge_sorted_dedup_first_wins (h f : List FundingRate) :
    ((merge h f).Pairwise fun a b => a.fundingTime < b.fundingTime)
    ∧ (∀ r ∈ merge h f, r ∈ h ∨ (r ∈ f ∧ ∀ x ∈ h, x.fundingTime ≠ r.fundingTime))
    ∧ (∀ r ∈ h, ∃ q ∈ merge h f, q.fundingTime = r.fundingTime) := by
  refine ⟨?_, ?_, ?_⟩
  · refine ((merge_pairwise_le h f).and (merge_pairwise_ne h f)).imp ?_
    intro a b hab
    exact lt_of_le_of_ne (of_decide_eq_true hab.1) hab.2
  · intro r hr
    have hu : r ∈ uniqByTime (h ++ f) := (merge_perm_uniq h f).mem_iff.1 hr
    exact uniqByTimeAux_append_first_wins hu
  · intro r hr
    have ht : r.fundingTime ∈ (h ++ f).map FundingRate.fundingTime :=
      List.mem_map_of_mem _ (List.mem_append_left _ hr)
    obtain ⟨q, hq, hqt⟩ :=
      exists_mem_uniqByTimeAux_of_time [] ht (List.not_mem_nil _)
    exact ⟨q, (merge_perm_uniq h f).mem_iff.2 hq, hqt⟩

/-- Sample record builder used to instantiate witnesses on concrete inputs. -/
def sample (t : Int) : FundingRate :=
  { exchange := "Binance", pair := "BTC/USDT", rawPair := "BTCUSDT"
    fundingRate := 0, fundingTime := t, fundingTimeStr := "" }

theorem merge_concrete :
    merge [sample 1000] [sample 1000, sample 2000] = [sample 1000, sample 2000] := by
  show sortByTime (uniqByTime ([sample 1000] ++ [sample 1000, sample 2000]))
      = [sample 1000, sample 2000]
  rw [show uniqByTime ([sample 1000] ++ [sample 1000, sample 2000])
      = [sample 1000, sample 2000] by decide]
  exact List.mergeSort_of_sorted (by decide)

/-- C1 witness: the spec's own example, history `[{fundingTime:1000}]` merged
with fresh `[{fundingTime:1000},{fundingTime:2000}]`. -/
theorem merge_sorted_dedup_first_wins_witness :
    (sample 1000 ∈ [sample 1000]
      ∨ (sample 1000 ∈ [sample 1000, sample 2000]
          ∧ ∀ x ∈ [sample 1000], x.fundingTime ≠ (sample 1000).fundingTime))
    ∧ ∃ q ∈ merge [sample 1000] [sample 1000, sample 2000],
        q.fundingTime = (sample 1000).fundingTime := by
  have H := merge_sorted_dedup_first_wins [sample 1000] [sample 1000, sample 2000]
  refine ⟨H.2.1 (sample 1000) ?_, H.2.2 (sample 1000) (List.mem_cons_self _ _)⟩
  rw [merge_concrete]
  exact List.mem_cons_self _ _

/-- C2: merging an already-merged sequence with the same fresh batch again
changes nothing: `merge(merge(h, f), f) = merge(h, f)`. -/
theorem merge_idempotent (h f : List FundingRate) :
    merge (merge h f) f = merge h f := by
  set m := merge h f with hm
  have hne : m.Pairwise fun a b => a.fundingTime ≠ b.fundingTime :=
    merge_pairwise_ne h f
  have hcover : ∀ r ∈ f, r.fundingTime ∈ m.map FundingRate.fundingTime := by
    intro r hr
    have ht : r.fundingTime ∈ (h ++ f).map FundingRate.fundingTime :=
      List.mem_map_of_mem _ (List.mem_append_right _ hr)
    obtain ⟨q, hq, hqt⟩ :=
      exists_mem_uniqByTimeAux_of_time [] ht (List.not_mem_nil _)
    have : q ∈ m := (merge_perm_uniq h f).mem_iff.2 hq
    exact hqt ▸ List.mem_map_of_mem _ this
  show sortByTime (uniqByTime (m ++ f)) = m
  rw [show uniqByTime (m ++ f) = uniqByTime m from
      uniqByTimeAux_append_absorb fun r hr => Or.inr (hcover r hr)]
  rw [show uniqByTime m = m from
      uniqByTimeAux_eq_self (fun r _ => List.not_mem_nil _) hne]
  exact List.mergeSort_of_sorted (merge_pairwise_le h f)

/-! ### Checkpoint store: resume timestamp and checkpoint read -/

/-- Constant `1568102400000` = 2019-09-10T08:00:00.000Z, the fallback when no history
exists (`crawlFundingRates`). -/
def defaultStartTime : Int := 1568102400000

/-- The `startTime` computation of `crawlFundingRates` (lines 276–284):
`history.length <= 0` yields the fixed epoch default, otherwise the record at
JS index `length - (exchange === 'OKEx' ? 2 : 1)` supplies
`fundingTime + 1000`.  A negative JS index reads `undefined`, and
`undefined.fundingTime` throws a `TypeError`; that path is modelled as
`none`. -/
def computeStartTime (exchange : String) (history : List FundingRate) : Option Int :=
  if history.length ≤ 0 then some defaultStartTime
  else
    let idx : Int := (history.length : Int) - (if exchange = "OKEx" then 2 else 1)
    if idx < 0 then none
    else (history[idx.toNat]?).map fun r => r.fundingTime + 1000

/-- C3 counterexample: with a single Binance record at `fundingTime = 0` the
code resumes at `1000` (one second later), not at `0 + 1` as the claim
states. -/
theorem computeStartTime_plus_one_counterexample :
    computeStartTime "Binance" [sample 0] ≠ some ((sample 0).fundingTime + 1) := by
  decide

/-- C3 (amended): for a non-empty persisted sequence of a non-OKEx market
whose last record has `fundingTime = T`, the resume timestamp is
`T + 1000` (one second after `T`), not `T + 1`. -/
theorem computeStartTime_non_okex (exchange : String) (history : List FundingRate)
    (r : FundingRate) (hx : exchange ≠ "OKEx") (hlast : history.getLast? = some r) :
    computeStartTime exchange history = some (r.fundingTime + 1000) := by
  have hne : history ≠ [] := by
    intro hnil
    rw [hnil] at hlast
    simp at hlast
  have hlen : 0 < history.length := List.length_pos.2 hne
  rw [List.getLast?_eq_getElem? history] at hlast
  simp only [computeStartTime, if_neg (by omega : ¬ history.length ≤ 0), hx,
    if_neg hx, if_false]
  rw [if_neg (by omega : ¬ ((history.length : Int) - 1 < 0))]
  rw [show ((history.length : Int) - 1).toNat = history.length - 1 by omega]
  rw [hlast]
  rfl

/-- C3 witness: one Binance record at time `0` resumes at `0 + 1000`. -/
theorem computeStartTime_non_okex_witness :
    computeStartTime "Binance" [sample 0] = some ((sample 0).fundingTime + 1000) :=
  computeStartTime_non_okex "Binance" [sample 0] (sample 0) (by decide) rfl

/-- C4 counterexample: an OKEx history whose last two records have times
`0 < 8` resumes at `1000`, not at `0 + 1` as the claim states. -/
theorem computeStartTime_okex_plus_one_counterexample :
    computeStartTime "OKEx" [sample 0, sample 8] ≠ some ((sample 0).fundingTime + 1) := by
  decide

/-- C4 (amended): for an OKEx history whose last two records have times
`T1 < T2`, the final record is excluded and the resume timestamp is
`T1 + 1000` (one second after the second-to-last record), not `T1 + 1`. -/
theorem computeStartTime_okex_penultimate (pre : List FundingRate)
    (r1 r2 : FundingRate) (h12 : r1.fundingTime < r2.fundingTime) :
    computeStartTime "OKEx" (pre ++ [r1, r2]) = some (r1.fundingTime + 1000) := by
  have hlen : (pre ++ [r1, r2]).length = pre.length + 2 := by simp
  simp only [computeStartTime, hlen, if_neg (by omega : ¬ pre.length + 2 ≤ 0),
    if_pos rfl, if_true]
  rw [if_neg (by omega : ¬ ((pre.length + 2 : Nat) : Int) - 2 < 0)]
  rw [show (((pre.length + 2 : Nat) : Int) - 2).toNat = pre.length by omega]
  rw [List.getElem?_append_right (by omega : pre.length ≤ pre.length)]
  simp

/-- C4 witness: OKEx history `[time 0, time 8]` resumes at `0 + 1000`. -/
theorem computeStartTime_okex_penultimate_witness :
    computeStartTime "OKEx" ([] ++ [sample 0, sample 8])
      = some ((sample 0).fundingTime + 1000) :=
  computeStartTime_okex_penultimate [] (sample 0) (sample 8) (by decide)

/-- C10: an OKEx history holding exactly one record indexes position
`1 - 2 = -1`; the element is `undefined` and reading its `fundingTime`
throws, so no resume timestamp is produced. -/
theorem computeStartTime_okex_singleton (r : FundingRate) :
    computeStartTime "OKEx" [r] = none := by
  simp [computeStartTime]

/-- Checkpoint read of `crawlFundingRates` (lines 265–275).  The stored blob
is abstracted by its parse outcome: `none` = no file, `some none` = file
exists but its content fails to parse, `some (some l)` = file parses as `l`.
The code first runs `JSON.parse` inside a `try/catch` whose handler only
logs, then — for an existing file — runs `JSON.parse` a second time OUTSIDE
any `try/catch` to build `fundingRatesHistory`; an unparseable file therefore
throws on the second parse, modelled as `Except.error ()`. -/
def readHistory : Option (Option (List FundingRate)) → Except Unit (List FundingRate)
  | none => .ok []
  | some (some l) => .ok l
  | some none => .error ()

/-- C5: a stored checkpoint whose content fails to parse does NOT yield the
empty history — the unguarded second `JSON.parse` throws and the market's
run aborts, contradicting the claim. -/
theorem readHistory_parse_failure_throws :
    readHistory (some none) = Except.error ()
      ∧ readHistory (some none) ≠ Except.ok ([] : List FundingRate) :=
  ⟨rfl, fun h => Except.noConfusion h⟩

/-! ### Pagination driver and exchange adapters

The HTTP fetch of each adapter is abstracted as a function argument
(`fetch`): for Binance and BitMEX a function of the advancing `startTime`
cursor, for Huobi a function of the advancing page index.  The unbounded
`do/while` loops are driven by explicit fuel; an exhausted fuel returns the
empty accumulator and every claim about loop behaviour is stated at
positive fuel. -/

/-- Model of `fundingRates[fundingRates.length - 1].fundingTime` (the code reads it
only on non-empty pages; the `0` default is never reached on those paths). -/
def lastTime (l : List FundingRate) : Int :=
  match l.getLast? with
  | some r => r.fundingTime
  | none => 0

/-- The `do/while` loop of `crawlBinanceFundingRate`: fetch a page at the
cursor; a non-empty page is accumulated and the cursor advances to the last
record's `fundingTime + 1000` (add 1 second); the loop repeats while the
page has at least 1000 items. -/
def crawlBinanceLoop (fetch : Int → List FundingRate) : Nat → Int → List FundingRate
  | 0, _ => []
  | fuel + 1, startTime =>
    let fundingRates := fetch startTime
    if fundingRates.length ≥ 1000 then
      fundingRates ++ crawlBinanceLoop fetch fuel (lastTime fundingRates + 1000)
    else fundingRates

/-- Function `crawlBinanceFundingRate`: run the pagination loop, then sort ascending
by `fundingTime`.  No filtering against `startTime` happens here. -/
def crawlBinanceFundingRate (fetch : Int → List FundingRate) (fuel : Nat)
    (startTime : Int) : List FundingRate :=
  sortByTime (crawlBinanceLoop fetch fuel startTime)

/-- The `do/while` loop of `crawlBitMEXFundingRate`: as Binance, but the
page-size threshold is 500 and the cursor advances by `+ 3600000`
(add 1 hour). -/
def crawlBitMEXLoop (fetch : Int → List FundingRate) : Nat → Int → List FundingRate
  | 0, _ => []
  | fuel + 1, startTime =>
    let fundingRates := fetch startTime
    if fundingRates.length ≥ 500 then
      fundingRates ++ crawlBitMEXLoop fetch fuel (lastTime fundingRates + 3600000)
    else fundingRates

/-- Function `crawlBitMEXFundingRate`: loop then sort; no `startTime` filtering. -/
def crawlBitMEXFundingRate (fetch : Int → List FundingRate) (fuel : Nat)
    (startTime : Int) : List FundingRate :=
  sortByTime (crawlBitMEXLoop fetch fuel startTime)

/-- The `do/while` loop of `crawlHuobiFundingRate`: fetch the page at
`pageIndex`, increment the page index, drop records with
`fundingTime <= lastFundingTime`, accumulate the remainder, and repeat while
the FILTERED page still has at least 50 items. -/
def crawlHuobiLoop (fetch : Nat → List FundingRate) (lastFundingTime : Int) :
    Nat → Nat → List FundingRate
  | 0, _ => []
  | fuel + 1, pageIndex =>
    let filtered := (fetch pageIndex).filter fun r => lastFundingTime < r.fundingTime
    if filtered.length ≥ 50 then
      filtered ++ crawlHuobiLoop fetch lastFundingTime fuel (pageIndex + 1)
    else filtered

/-- Function `crawlHuobiFundingRate`: loop starting at page index 1, then sort. -/
def crawlHuobiFundingRate (fetch : Nat → List FundingRate) (lastFundingTime : Int)
    (fuel : Nat) : List FundingRate :=
  sortByTime (crawlHuobiLoop fetch lastFundingTime fuel 1)

/-- Function `crawlOKExFundingRate`: one history fetch plus one current-rate fetch
(both abstracted as arguments), concatenated, filtered to
`fundingTime >= startTime`, sorted ascending. -/
def crawlOKExFundingRate (fundingRateHistory : List FundingRate)
    (fundingRateCurrent : FundingRate) (startTime : Int) : List FundingRate :=
  sortByTime
    ((fundingRateHistory ++ [fundingRateCurrent]).filter fun r =>
      startTime ≤ r.fundingTime)

theorem sortByTime_pairwise_le (l : List FundingRate) :
    (sortByTime l).Pairwise fun a b => a.fundingTime ≤ b.fundingTime :=
  (List.sorted_mergeSort leTime_trans leTime_total l).imp fun hab =>
    of_decide_eq_true hab

theorem crawlHuobiLoop_mem_gt (fetch : Nat → List FundingRate)
    (lastFundingTime : Int) (fuel : Nat) :
    ∀ pageIndex, ∀ r ∈ crawlHuobiLoop fetch lastFundingTime fuel pageIndex,
      lastFundingTime < r.fundingTime := by
  induction fuel with
  | zero =>
    intro i r hr
    simp [crawlHuobiLoop] at hr
  | succ n ih =>
    intro i r hr
    simp only [crawlHuobiLoop] at hr
    split at hr
    · rcases List.mem_append.1 hr with hr' | hr'
      · exact of_decide_eq_true (List.mem_filter.1 hr').2
      · exact ih (i + 1) r hr'
    · exact of_decide_eq_true (List.mem_filter.1 hr).2

/-! ### Claim theorems: pagination driver -/

/-- C6 counterexample: the Binance driver does not filter by `startTime`.
With a simulated exchange that ignores the start parameter and returns a
record at time `0`, a crawl started at `100` still outputs that record,
whose `fundingTime` is below `startTime`. -/
theorem pagination_startTime_filter_counterexample :
    sample 0 ∈ crawlBinanceFundingRate (fun _ => [sample 0]) 1 100
      ∧ (sample 0).fundingTime < 100 := by
  refine ⟨List.mem_mergeSort.2 ?_, by decide⟩
  show sample 0 ∈ crawlBinanceLoop (fun _ => [sample 0]) 1 100
  decide

/-- C6 (amended): every adapter's output is sorted ascending by
`fundingTime`, and OKEx filters its output to `fundingTime >= startTime`
while Huobi filters to `fundingTime > lastFundingTime`; the Binance and
BitMEX outputs are NOT filtered against `startTime` (they rely on the
exchange honouring the start parameter). -/
theorem pagination_output_sorted_and_filtered (bfetch xfetch : Int → List FundingRate)
    (hfetch : Nat → List FundingRate) (hist : List FundingRate) (cur : FundingRate)
    (fuel : Nat) (startTime lastFundingTime : Int) :
    ((crawlBinanceFundingRate bfetch fuel startTime).Pairwise
        fun a b => a.fundingTime ≤ b.fundingTime)
    ∧ ((crawlBitMEXFundingRate xfetch fuel startTime).Pairwise
        fun a b => a.fundingTime ≤ b.fundingTime)
    ∧ ((crawlHuobiFundingRate hfetch lastFundingTime fuel).Pairwise
        fun a b => a.fundingTime ≤ b.fundingTime)
    ∧ ((crawlOKExFundingRate hist cur startTime).Pairwise
        fun a b => a.fundingTime ≤ b.fundingTime)
    ∧ (∀ r ∈ crawlOKExFundingRate hist cur startTime, startTime ≤ r.fundingTime)
    ∧ (∀ r ∈ crawlHuobiFundingRate hfetch lastFundingTime fuel,
        lastFundingTime < r.fundingTime) := by
  refine ⟨sortByTime_pairwise_le _, sortByTime_pairwise_le _,
    sortByTime_pairwise_le _, sortByTime_pairwise_le _, ?_, ?_⟩
  · intro r hr
    have hr' := List.mem_mergeSort.1 hr
    exact of_decide_eq_true (List.mem_filter.1 hr').2
  · intro r hr
    exact crawlHuobiLoop_mem_gt hfetch lastFundingTime fuel 1 r
      (List.mem_mergeSort.1 hr)

/-- C6 witness: concrete one-page runs of all four adapters; the OKEx record
at time `5` survives a crawl started at `3` and satisfies the filter bound,
as does the Huobi record at time `7` against last known time `3`. -/
theorem pagination_output_sorted_and_filtered_witness :
    (3 : Int) ≤ (sample 5).fundingTime ∧ (3 : Int) < (sample 7).fundingTime := by
  have H := pagination_output_sorted_and_filtered (fun _ => [sample 0])
    (fun _ => [sample 0]) (fun _ => [sample 7]) [] (sample 5) 1 3 3
  refine ⟨H.2.2.2.2.1 (sample 5) ?_, H.2.2.2.2.2 (sample 7) ?_⟩
  · refine List.mem_mergeSort.2 ?_
    show sample 5 ∈ (([] : List FundingRate) ++ [sample 5]).filter
      fun r => decide ((3 : Int) ≤ r.fundingTime)
    decide
  · refine List.mem_mergeSort.2 ?_
    show sample 7 ∈ crawlHuobiLoop (fun _ => [sample 7]) 3 1 1
    decide

/-- C7: at positive fuel, a Binance page of length ≥ 1000 is accumulated and
the loop continues at cursor `lastTime page + 1000` (one second past the last
record); a page of length < 1000 ends the loop, the page itself being the
remaining output; the final crawl output is sorted ascending by
`fundingTime`. -/
theorem binance_pagination (fetch : Int → List FundingRate) (fuel : Nat)
    (startTime : Int) :
    ((fetch startTime).length ≥ 1000 →
      crawlBinanceLoop fetch (fuel + 1) startTime
        = fetch startTime
            ++ crawlBinanceLoop fetch fuel (lastTime (fetch startTime) + 1000))
    ∧ ((fetch startTime).length < 1000 →
      crawlBinanceLoop fetch (fuel + 1) startTime = fetch startTime)
    ∧ ((crawlBinanceFundingRate fetch fuel startTime).Pairwise
        fun a b => a.fundingTime ≤ b.fundingTime) := by
  refine ⟨fun hge => ?_, fun hlt => ?_, sortByTime_pairwise_le _⟩
  · simp only [crawlBinanceLoop]
    rw [if_pos hge]
  · simp only [crawlBinanceLoop]
    rw [if_neg (by omega)]

/-- A 1000-record Binance page, used to exercise the continuation branch. -/
def bigPage : List FundingRate := List.replicate 1000 (sample 5)

/-- Simulated Binance endpoint: a full page at cursor `0`, nothing after. -/
def binanceFetchSim (st : Int) : List FundingRate := if st = 0 then bigPage else []

/-- C7 witness: the simulated exchange returns a full page at cursor `0`
(the loop continues) and an empty page at cursor `1` (the loop stops). -/
theorem binance_pagination_witness :
    (crawlBinanceLoop binanceFetchSim 2 0
        = binanceFetchSim 0
            ++ crawlBinanceLoop binanceFetchSim 1 (lastTime (binanceFetchSim 0) + 1000))
    ∧ crawlBinanceLoop binanceFetchSim 2 1 = binanceFetchSim 1 := by
  refine ⟨(binance_pagination binanceFetchSim 1 0).1 ?_,
    (binance_pagination binanceFetchSim 1 1).2.1 ?_⟩
  · simp [binanceFetchSim, bigPage]
  · simp [binanceFetchSim]

/-- C8: every Huobi record at or before the last known time is filtered out
before accumulation (all crawl output lies strictly above
`lastFundingTime`); at positive fuel a filtered page of length < 50 ends the
loop with that page as the remaining output, while a filtered page of
length ≥ 50 is accumulated and the loop advances to the next page index. -/
theorem huobi_pagination (fetch : Nat → List FundingRate) (fuel : Nat)
    (pageIndex : Nat) (lastFundingTime : Int) :
    (∀ r ∈ crawlHuobiFundingRate fetch lastFundingTime fuel,
        lastFundingTime < r.fundingTime)
    ∧ (((fetch pageIndex).filter fun r => lastFundingTime < r.fundingTime).length < 50 →
        crawlHuobiLoop fetch lastFundingTime (fuel + 1) pageIndex
          = (fetch pageIndex).filter fun r => lastFundingTime < r.fundingTime)
    ∧ (((fetch pageIndex).filter fun r => lastFundingTime < r.fundingTime).length ≥ 50 →
        crawlHuobiLoop fetch lastFundingTime (fuel + 1) pageIndex
          = ((fetch pageIndex).filter fun r => lastFundingTime < r.fundingTime)
              ++ crawlHuobiLoop fetch lastFundingTime fuel (pageIndex + 1)) := by
  refine ⟨fun r hr => crawlHuobiLoop_mem_gt fetch lastFundingTime fuel 1 r
      (List.mem_mergeSort.1 hr), fun hlt => ?_, fun hge => ?_⟩
  · simp only [crawlHuobiLoop]
    rw [if_neg (by omega)]
  · simp only [crawlHuobiLoop]
    rw [if_pos hge]

/-- A Huobi page of 50 records above the cutoff, exercising continuation. -/
def huobiFullPage : List FundingRate := List.replicate 50 (sample 7)

/-- C8 witness: a stale record at time `2 ≤ 3` is dropped (page `[time 7,
time 2]` filters to `[time 7]`, which is also the final one-page output),
and a 50-record page above the cutoff makes the loop advance to the next
page index. -/
theorem huobi_pagination_witness :
    ((3 : Int) < (sample 7).fundingTime
      ∧ crawlHuobiLoop (fun _ => [sample 7, sample 2]) 3 2 1
          = ([sample 7, sample 2].filter fun r => (3 : Int) < r.fundingTime))
    ∧ crawlHuobiLoop (fun _ => huobiFullPage) 3 2 1
        = (huobiFullPage.filter fun r => (3 : Int) < r.fundingTime)
            ++ crawlHuobiLoop (fun _ => huobiFullPage) 3 1 2 := by
  have H1 := huobi_pagination (fun _ => [sample 7, sample 2]) 1 1 3
  have H2 := huobi_pagination (fun _ => huobiFullPage) 1 1 3
  refine ⟨⟨H1.1 (sample 7) ?_, H1.2.1 ?_⟩, H2.2.2 ?_⟩
  · refine List.mem_mergeSort.2 ?_
    show sample 7 ∈ crawlHuobiLoop (fun _ => [sample 7, sample 2]) 3 1 1
    decide
  · decide
  · show (huobiFullPage.filter fun r => decide ((3 : Int) < r.fundingTime)).length ≥ 50
    decide

/-! ### Retry supervisor -/

/-- One log-and-delay step of the retry loop: the two `console.error` lines
(`exchange-pair` context and the error message) and the
`setTimeout(resolve, 5000)` delay before the next attempt. -/
structure RetryLogEntry where
  context : String
  message : String
  delayMs : Nat
deriving DecidableEq, Repr

/-- The `while (!succeeded)` loop of `crawlFundingRates` (lines 305–319).
`attempts i` is the outcome of the i-th call of `crawlFunc` (the network is
abstracted as this function); a failure is logged with `exchange-pair`
context and followed by a 5000 ms delay, then the loop retries; a success
ends the loop with that attempt's records.  The real loop is unbounded;
`fuel` bounds how many attempts are examined, `none` meaning no success was
reached within the bound. -/
def retrySupervisor (exchange pair : String)
    (attempts : Nat → Except String (List FundingRate)) :
    Nat → Nat → Option (List FundingRate × List RetryLogEntry)
  | 0, _ => none
  | fuel + 1, i =>
    match attempts i with
    | .ok fundingRates => some (fundingRates, [])
    | .error msg =>
      (retrySupervisor exchange pair attempts fuel (i + 1)).map
        fun p => (p.1, ⟨exchange ++ "-" ++ pair, msg, 5000⟩ :: p.2)

/-- The tail of `crawlFundingRates`: the retried crawl followed by the
merge-dedup-sort against the persisted history; the merged sequence is what
`fs.writeFileSync` persists. -/
def crawlMarket (exchange pair : String) (history : List FundingRate)
    (attempts : Nat → Except String (List FundingRate)) (fuel : Nat) :
    Option (List FundingRate × List RetryLogEntry) :=
  (retrySupervisor exchange pair attempts fuel 0).map
    fun p => (merge history p.1, p.2)

theorem retrySupervisor_ok (exchange pair : String)
    (attempts : Nat → Except String (List FundingRate)) {i : Nat}
    {v : List FundingRate} (h : attempts i = .ok v) (fuel : Nat) :
    retrySupervisor exchange pair attempts (fuel + 1) i = some (v, []) := by
  simp only [retrySupervisor, h]

theorem retrySupervisor_error (exchange pair : String)
    (attempts : Nat → Except String (List FundingRate)) {i : Nat} {msg : String}
    (h : attempts i = .error msg) (fuel : Nat) :
    retrySupervisor exchange pair attempts (fuel + 1) i
      = (retrySupervisor exchange pair attempts fuel (i + 1)).map
          fun p => (p.1, ⟨exchange ++ "-" ++ pair, msg, 5000⟩ :: p.2) := by
  simp only [retrySupervisor, h]

theorem retrySupervisor_spec (exchange pair : String)
    (attempts : Nat → Except String (List FundingRate)) (msgs : Nat → String)
    (v : List FundingRate) :
    ∀ (k j : Nat), (∀ i, i < k → attempts (j + i) = .error (msgs (j + i))) →
      attempts (j + k) = .ok v →
      retrySupervisor exchange pair attempts (k + 1) j
        = some (v, (List.range k).map
            fun i => ⟨exchange ++ "-" ++ pair, msgs (j + i), 5000⟩) := by
  intro k
  induction k with
  | zero =>
    intro j _ hok
    rw [retrySupervisor_ok exchange pair attempts (by simpa using hok) 0]
    simp
  | succ n ih =>
    intro j hfail hok
    have hj : attempts j = Except.error (msgs j) := by
      simpa using hfail 0 (by omega)
    have hrec := ih (j + 1)
      (fun i hi => by
        have := hfail (i + 1) (by omega)
        simpa [Nat.add_assoc, Nat.add_comm 1 i] using this)
      (by simpa [Nat.add_assoc, Nat.add_comm 1 n] using hok)
    rw [retrySupervisor_error exchange pair attempts hj (n + 1), hrec]
    simp only [Option.map_some, List.range_succ_eq_map, List.map_cons,
      List.map_map]
    refine congrArg some (Prod.ext rfl ?_)
    simp only [Nat.add_zero]
    refine congrArg (_ :: ·) (List.map_congr_left fun i _ => ?_)
    simp only [Function.comp_apply]
    congr 2
    omega

/-- C9: if the first `n` fetch attempts for a market fail and attempt `n`
succeeds with records `v`, the supervisor retries through all failures —
logging each with `exchange-pair` context and its message followed by a
5000 ms delay — and the run ends successfully (no error escapes): the
persisted sequence is exactly `merge history v`, reflecting only the
successful attempt's data. -/
theorem retry_supervisor_recovers (exchange pair : String)
    (history v : List FundingRate)
    (attempts : Nat → Except String (List FundingRate)) (msgs : Nat → String)
    (n : Nat) (hfail : ∀ i, i < n → attempts i = .error (msgs i))
    (hok : attempts n = .ok v) :
    crawlMarket exchange pair history attempts (n + 1)
      = some (merge history v, (List.range n).map
          fun i => ⟨exchange ++ "-" ++ pair, msgs i, 5000⟩) := by
  have h := retrySupervisor_spec exchange pair attempts msgs v n 0
    (fun i hi => by simpa using hfail i hi) (by simpa using hok)
  simp only [crawlMarket, h, Option.map_some]
  simp

/-- Simulated attempt outcomes for the C9 witness: one transient failure,
then success with a single record. -/
def retryAttemptsSim : Nat → Except String (List FundingRate) :=
  fun i => if i = 0 then .error "timeout" else .ok [sample 5]

/-- C9 witness: the spec's retry example — first attempt fails, the second
succeeds; the persisted state is the merge of the history with the second
attempt's data and the single failure was logged with context and a 5000 ms
delay. -/
theorem retry_supervisor_recovers_witness :
    crawlMarket "Binance" "BTC/USDT" [sample 0] retryAttemptsSim 2
      = some (merge [sample 0] [sample 5], (List.range 1).map
          fun _ => ⟨"Binance" ++ "-" ++ "BTC/USDT", "timeout", 5000⟩) :=
  retry_supervisor_recovers "Binance" "BTC/USDT" [sample 0] [sample 5]
    retryAttemptsSim (fun _ => "timeout") 1
    (fun i hi => by
      have : i = 0 := by omega
      subst this
      rfl)
    rfl

end FundingRateCrawler
